import Mathlib

/-!
Verification of the OFT (orthogonal fine-tuning) adapter merger of
`extensions-builtin/Lora/network_oft.py`.

The embedding works over exact real arithmetic: a tensor of shape
`(num_blocks, block_size, block_size)` is a function
`Fin num_blocks → Matrix (Fin block_size) (Fin block_size) ℝ`, and a torch
operation that can raise (the batched matrix inversion of the Cayley step,
the broadcasting elementwise add, the attribute lookup in `__init__`)
is modelled as an `Option`.
-/

open Matrix

/-- Python's substring test `sub in s`, as applied to the class name of the
target layer (network_oft.py lines 26 and 28). -/
def strContains (s sub : String) : Bool := decide (sub.toList <:+: s.toList)

/-- Lines 26-29 of network_oft.py: `self.out_dim` is assigned
`self.sd_module.out_features` when the layer's class name contains
`"Linear"`, `self.sd_module.out_channels` when it contains `"Conv"`, and is
never assigned otherwise (`none`). -/
def layer_out_dim (className : String) (out_features out_channels : ℕ) : Option ℕ :=
  if strContains className "Linear" then some out_features
  else if strContains className "Conv" then some out_channels
  else none

/-- PyTorch broadcasting of one dimension pair: the sizes agree, or one of
them is 1; otherwise the operation raises a RuntimeError (`none`). -/
def broadcastDim (a b : ℕ) : Option ℕ :=
  if a = b then some a else if a = 1 then some b else if b = 1 then some a else none

/-- The shape of `x + y` for 2-dimensional tensors of shapes `x` and `y`
under PyTorch broadcasting; `none` models the RuntimeError raised on
incompatible shapes. -/
def addShape (x y : ℕ × ℕ) : Option (ℕ × ℕ) := do
  let d0 ← broadcastDim x.1 y.1
  let d1 ← broadcastDim x.2 y.2
  pure (d0, d1)

/-- The shape of `R = torch.block_diag(*block_R_weighted)` (line 49 / 62):
`num_blocks` square blocks of size `block_size` give a square matrix of size
`num_blocks * block_size`. -/
def rotationShape (num_blocks block_size : ℕ) : ℕ × ℕ :=
  (num_blocks * block_size, num_blocks * block_size)

/-- The dimension behaviour of `calc_updown` (lines 63-68): line 65 computes
`updown = orig_weight + R`, an elementwise add of the base weight of shape
`origShape` and the `(num_blocks*block_size, num_blocks*block_size)` rotation
under broadcasting; the result (when the add is legal) is returned with that
broadcast shape. -/
def calc_updown_shape (num_blocks block_size : ℕ) (origShape : ℕ × ℕ) : Option (ℕ × ℕ) :=
  addShape origShape (rotationShape num_blocks block_size)

noncomputable section

/-- The literal `1e-8` of network_oft.py line 44 (and line 58). -/
def eps : ℝ := 1 / 100000000

/-- The state of a `NetworkModuleOFT` after a successful `__init__`
(network_oft.py lines 14-37): the loaded tensor `oft_blocks` (shape
`(num_blocks, block_size, block_size)`), the loaded scalar `alpha`, the
derived `out_dim`, `constraint = alpha * out_dim` (line 31) and
`block_size = out_dim // num_blocks` (line 32), and `oft_multiplier`, the
value `self.multiplier()` returned at construction time (line 34). -/
structure OFTState (nb bs : ℕ) where
  oft_blocks : Fin nb → Matrix (Fin bs) (Fin bs) ℝ
  alpha : ℝ
  out_dim : ℕ
  constraint : ℝ
  block_size : ℕ
  oft_multiplier : ℝ

/-- `NetworkModuleOFT.__init__` (lines 14-37). `net_multiplier` is the value
`self.multiplier()` returns at line 34 (`multiplier` lives in network.py,
outside these sources; per the spec it is the caller-side adapter strength at
that moment). The result is `none` when neither branch of lines 26-29
assigned `self.out_dim`, in which case line 31 (`self.alpha * self.out_dim`)
raises instead of producing a state. -/
def oft_init {nb bs : ℕ} (oft_blocks : Fin nb → Matrix (Fin bs) (Fin bs) ℝ) (alpha : ℝ)
    (className : String) (out_features out_channels : ℕ) (net_multiplier : ℝ) :
    Option (OFTState nb bs) :=
  match layer_out_dim className out_features out_channels with
  | some od => some ⟨oft_blocks, alpha, od, alpha * (od : ℝ), od / nb, net_multiplier⟩
  | none => none

variable {nb bs : ℕ}

/-- Line 41: `block_Q = self.oft_blocks - self.oft_blocks.transpose(1, 2)`,
the skew-symmetrisation of each block. -/
def skew_Q (s : OFTState nb bs) : Fin nb → Matrix (Fin bs) (Fin bs) ℝ :=
  fun k => s.oft_blocks k - (s.oft_blocks k)ᵀ

/-- `torch.norm(t.flatten())` of a stacked block tensor: the Frobenius norm
over all blocks jointly (a single scalar). -/
def frobNorm (Q : Fin nb → Matrix (Fin bs) (Fin bs) ℝ) : ℝ :=
  Real.sqrt (∑ k, ∑ i, ∑ j, Q k i j ^ 2)

/-- Line 42: `norm_Q = torch.norm(block_Q.flatten())`. -/
def norm_Q (s : OFTState nb bs) : ℝ := frobNorm (skew_Q s)

/-- Line 43: `new_norm_Q = torch.clamp(norm_Q, max=self.constraint)`. -/
def new_norm_Q (s : OFTState nb bs) : ℝ := min (norm_Q s) s.constraint

/-- Line 44: `block_Q = block_Q * ((new_norm_Q + 1e-8) / (norm_Q + 1e-8))`. -/
def rescaled_Q (s : OFTState nb bs) : Fin nb → Matrix (Fin bs) (Fin bs) ℝ :=
  fun k => ((new_norm_Q s + eps) / (norm_Q s + eps)) • skew_Q s k

/-- Line 46: the Cayley transform
`block_R = torch.matmul(I + block_Q, (I - block_Q).inverse())` per block.
(The Mathlib matrix inverse is total; `get_weight` guards the singular case,
where torch raises, with an explicit check.) -/
def cayley_R (s : OFTState nb bs) : Fin nb → Matrix (Fin bs) (Fin bs) ℝ :=
  fun k => (1 + rescaled_Q s k) * (1 - rescaled_Q s k)⁻¹

/-- Line 48: `block_R_weighted = self.oft_multiplier * block_R +
(1 - self.oft_multiplier) * I`, the blend of each Cayley block with the
identity, weighted by the multiplier cached at construction time. -/
def blended_R (s : OFTState nb bs) : Fin nb → Matrix (Fin bs) (Fin bs) ℝ :=
  fun k => s.oft_multiplier • cayley_R s k +
    (1 - s.oft_multiplier) • (1 : Matrix (Fin bs) (Fin bs) ℝ)

/-- `get_weight` (lines 40-51): skew-symmetrise, norm-clamp and rescale,
Cayley-transform each block, blend with the identity, and assemble the
block-diagonal rotation `R = torch.block_diag(*block_R_weighted)`. `none`
models the error `torch.inverse` raises at line 46 when some block's
denominator `I - block_Q` is singular. -/
def get_weight (s : OFTState nb bs) :
    Option (Matrix (Fin bs × Fin nb) (Fin bs × Fin nb) ℝ) :=
  if ∀ k, ((1 : Matrix (Fin bs) (Fin bs) ℝ) - rescaled_Q s k).det ≠ 0 then
    some (Matrix.blockDiagonal (blended_R s))
  else none

/-- Modelled from the spec: `finalize_updown` is defined in network.py, which
is not among the sources. Per the spec (section 4.1, `merge_into_weight`),
the merged result `base_weight + rotation` is returned unchanged, with the
same outer shape as the base weight. -/
def finalize_updown {m n : Type} (updown : Matrix m n ℝ) : Matrix m n ℝ := updown

/-- `calc_updown` (lines 53-68), transliterated step by step: the source
duplicates the whole `get_weight` pipeline inline (lines 55-62), so this
definition does too. The `.to(device, dtype)` of line 54 is the identity in
exact real semantics. The base weight is taken square: the elementwise add
`updown = orig_weight + R` of line 65 is only well-typed when
`in_dim = out_dim` (`calc_updown_shape` above gives the general broadcast
behaviour of that line). -/
def calc_updown (s : OFTState nb bs)
    (orig_weight : Matrix (Fin bs × Fin nb) (Fin bs × Fin nb) ℝ) :
    Option (Matrix (Fin bs × Fin nb) (Fin bs × Fin nb) ℝ) :=
  let oft_blocks := s.oft_blocks
  let block_Q : Fin nb → Matrix (Fin bs) (Fin bs) ℝ :=
    fun k => oft_blocks k - (oft_blocks k)ᵀ
  let normQ : ℝ := Real.sqrt (∑ k, ∑ i, ∑ j, block_Q k i j ^ 2)
  let newNormQ : ℝ := min normQ s.constraint
  let blockQ2 : Fin nb → Matrix (Fin bs) (Fin bs) ℝ :=
    fun k => ((newNormQ + eps) / (normQ + eps)) • block_Q k
  if ∀ k, ((1 : Matrix (Fin bs) (Fin bs) ℝ) - blockQ2 k).det ≠ 0 then
    let block_R : Fin nb → Matrix (Fin bs) (Fin bs) ℝ :=
      fun k => (1 + blockQ2 k) * (1 - blockQ2 k)⁻¹
    let block_R_weighted : Fin nb → Matrix (Fin bs) (Fin bs) ℝ :=
      fun k => s.oft_multiplier • block_R k +
        (1 - s.oft_multiplier) • (1 : Matrix (Fin bs) (Fin bs) ℝ)
    let R := Matrix.blockDiagonal block_R_weighted
    some (finalize_updown (orig_weight + R))
  else none

/-- Modelled from the spec: an invocation of `get_weight` at a moment when
the caller-side multiplier ("supplied by the caller per invocation; may
change between calls", spec section 3) currently has the value `current`.
The source's `get_weight` reads none of that transient state — it reads the
snapshot `self.oft_multiplier` taken at line 34 — so the invocation is just
`get_weight` on the stored state. -/
def get_weight_invoked (s : OFTState nb bs) (_current : ℝ) :
    Option (Matrix (Fin bs × Fin nb) (Fin bs × Fin nb) ℝ) :=
  get_weight s

/-- The operation `compute_rotation(block_params, alpha, out_dim,
multiplier)` exactly as the spec's words describe it (section 4.1, algorithm
steps 1-7, with the identity-blend multiplier a per-call argument), stated
for comparison with the source's `get_weight`. -/
def compute_rotation (block_params : Fin nb → Matrix (Fin bs) (Fin bs) ℝ)
    (alpha : ℝ) (out_dim : ℕ) (multiplier : ℝ) :
    Option (Matrix (Fin bs × Fin nb) (Fin bs × Fin nb) ℝ) :=
  let Q : Fin nb → Matrix (Fin bs) (Fin bs) ℝ :=
    fun k => block_params k - (block_params k)ᵀ
  let norm : ℝ := Real.sqrt (∑ k, ∑ i, ∑ j, Q k i j ^ 2)
  let newNorm : ℝ := min norm (alpha * (out_dim : ℝ))
  let Q2 : Fin nb → Matrix (Fin bs) (Fin bs) ℝ :=
    fun k => ((newNorm + eps) / (norm + eps)) • Q k
  if ∀ k, ((1 : Matrix (Fin bs) (Fin bs) ℝ) - Q2 k).det ≠ 0 then
    some (Matrix.blockDiagonal fun k =>
      multiplier • ((1 + Q2 k) * (1 - Q2 k)⁻¹) +
        (1 - multiplier) • (1 : Matrix (Fin bs) (Fin bs) ℝ))
  else none

/-- A concrete one-block adapter tensor: `oft_blocks = [[[0, 1], [-1, 0]]]`
(shape `(1, 2, 2)`). -/
def B0 : Fin 1 → Matrix (Fin 2) (Fin 2) ℝ := fun _ => Matrix.of ![![0, 1], ![-1, 0]]

/-- The skew-symmetrisation of `B0`: one block `[[0, 2], [-2, 0]]`. -/
def Qm0 : Matrix (Fin 2) (Fin 2) ℝ := Matrix.of ![![0, 2], ![-2, 0]]

/-- The Cayley transform of `Qm0`:
`(I + Q)(I - Q)⁻¹ = [[-3/5, 4/5], [-4/5, -3/5]]`. -/
def C0 : Matrix (Fin 2) (Fin 2) ℝ := Matrix.of ![![-(3/5), 4/5], ![-(4/5), -(3/5)]]

/-- A concrete module state over `B0`: `alpha = 10`, a Linear layer with
`out_dim = 2` (so `constraint = 20`, `block_size = 2`), constructed while the
network multiplier was 1. -/
def M0 : OFTState 1 2 := ⟨B0, 10, 2, 20, 2, 1⟩

/-- The same module as `M0` but constructed while the network multiplier
was 0. -/
def M5 : OFTState 1 2 := ⟨B0, 10, 2, 20, 2, 0⟩

/-- The rotation `get_weight` computes for `M0`: the single Cayley block
`C0`, blended with multiplier 1 and placed block-diagonally. -/
def R0 : Matrix (Fin 2 × Fin 1) (Fin 2 × Fin 1) ℝ :=
  Matrix.blockDiagonal fun _ => C0

/-- An all-zero two-block adapter (`oft_blocks = 0`, shape `(2, 3, 3)`) with
`alpha = 1`, `out_dim = 6`, `constraint = 6`, construction-time
multiplier 5. -/
def Z0 : OFTState 2 3 := ⟨fun _ => 0, 1, 6, 6, 3, 5⟩

end

/-! ## General lemmas -/

theorem eps_pos : (0 : ℝ) < eps := by norm_num [eps]

theorem frobNorm_nonneg {nb bs : ℕ} (Q : Fin nb → Matrix (Fin bs) (Fin bs) ℝ) :
    0 ≤ frobNorm Q := Real.sqrt_nonneg _

/-- Scaling every block by `f` scales the joint Frobenius norm by `|f|`. -/
theorem frobNorm_smul {nb bs : ℕ} (f : ℝ) (Q : Fin nb → Matrix (Fin bs) (Fin bs) ℝ) :
    frobNorm (fun k => f • Q k) = |f| * frobNorm Q := by
  unfold frobNorm
  have h : ∑ k, ∑ i, ∑ j, (f • Q k) i j ^ 2 = f ^ 2 * ∑ k, ∑ i, ∑ j, Q k i j ^ 2 := by
    simp only [Matrix.smul_apply, smul_eq_mul, mul_pow, Finset.mul_sum]
  rw [h, Real.sqrt_mul (sq_nonneg f), Real.sqrt_sq_eq_abs]

/-- The skew-symmetrised, rescaled block tensor is skew-symmetric: this is
what line 41 (subtracting the transpose) establishes and line 44 (a scalar
rescale) preserves. -/
theorem rescaled_Q_skew {nb bs : ℕ} (s : OFTState nb bs) (k : Fin nb) :
    (rescaled_Q s k)ᵀ = -(rescaled_Q s k) := by
  unfold rescaled_Q skew_Q
  rw [Matrix.transpose_smul, Matrix.transpose_sub, Matrix.transpose_transpose, ← smul_neg,
    neg_sub]

/-- For a real skew-symmetric matrix `A`, the Cayley denominator `I - A` is
never singular: exact-arithmetic inputs cannot make `torch.inverse` fail at
line 46. -/
theorem det_one_sub_skew {n : ℕ} (A : Matrix (Fin n) (Fin n) ℝ) (hA : Aᵀ = -A) :
    ((1 : Matrix (Fin n) (Fin n) ℝ) - A).det ≠ 0 := by
  intro h0
  obtain ⟨v, hv, hmv⟩ := (Matrix.exists_mulVec_eq_zero_iff).mpr h0
  have hAv : A *ᵥ v = v := by
    have h := hmv
    rw [Matrix.sub_mulVec, Matrix.one_mulVec, sub_eq_zero] at h
    exact h.symm
  have hs : v ⬝ᵥ (A *ᵥ v) = -(v ⬝ᵥ (A *ᵥ v)) := by
    calc v ⬝ᵥ (A *ᵥ v) = (v ᵥ* A) ⬝ᵥ v := Matrix.dotProduct_mulVec v A v
      _ = (Aᵀ *ᵥ v) ⬝ᵥ v := by rw [Matrix.mulVec_transpose]
      _ = ((-A) *ᵥ v) ⬝ᵥ v := by rw [hA]
      _ = -((A *ᵥ v) ⬝ᵥ v) := by rw [Matrix.neg_mulVec, Matrix.neg_dotProduct]
      _ = -(v ⬝ᵥ (A *ᵥ v)) := by rw [Matrix.dotProduct_comm]
  have hz : v ⬝ᵥ (A *ᵥ v) = 0 := by linarith [hs]
  have hvv : v ⬝ᵥ v = 0 := by nth_rewrite 2 [← hAv]; exact hz
  exact hv (Matrix.dotProduct_self_eq_zero.mp hvv)

/-- The Cayley transform `(I + A)(I - A)⁻¹` of a real skew-symmetric matrix
is orthogonal. -/
theorem cayley_orthogonal {n : ℕ} (A : Matrix (Fin n) (Fin n) ℝ) (hA : Aᵀ = -A) :
    ((1 + A) * (1 - A)⁻¹) * ((1 + A) * (1 - A)⁻¹)ᵀ = 1 := by
  have hd : ((1 : Matrix (Fin n) (Fin n) ℝ) - A).det ≠ 0 := det_one_sub_skew A hA
  have hdu : IsUnit ((1 : Matrix (Fin n) (Fin n) ℝ) - A).det := isUnit_iff_ne_zero.mpr hd
  have hT : ((1 : Matrix (Fin n) (Fin n) ℝ) - A)ᵀ = 1 + A := by
    rw [Matrix.transpose_sub, Matrix.transpose_one, hA, sub_neg_eq_add]
  have hN : ((1 : Matrix (Fin n) (Fin n) ℝ) + A)ᵀ = 1 - A := by
    rw [Matrix.transpose_add, Matrix.transpose_one, hA, ← sub_eq_add_neg]
  have hNu : IsUnit ((1 : Matrix (Fin n) (Fin n) ℝ) + A).det := by
    rw [← hT, Matrix.det_transpose]; exact hdu
  have comm : ((1 : Matrix (Fin n) (Fin n) ℝ) + A) * (1 - A) = (1 - A) * (1 + A) := by
    noncomm_ring
  have key : ((1 : Matrix (Fin n) (Fin n) ℝ) - A)⁻¹ * (1 + A)⁻¹ =
      (1 + A)⁻¹ * (1 - A)⁻¹ := by
    rw [← Matrix.mul_inv_rev, ← Matrix.mul_inv_rev, comm]
  calc ((1 + A) * (1 - A)⁻¹) * ((1 + A) * (1 - A)⁻¹)ᵀ
      = (1 + A) * (1 - A)⁻¹ * ((((1 : Matrix (Fin n) (Fin n) ℝ) - A)ᵀ)⁻¹ * (1 - A)) := by
        rw [Matrix.transpose_mul, Matrix.transpose_nonsing_inv, hN]
    _ = (1 + A) * (((1 : Matrix (Fin n) (Fin n) ℝ) - A)⁻¹ * (1 + A)⁻¹) * (1 - A) := by
        rw [hT]; noncomm_ring
    _ = (1 + A) * ((1 + A)⁻¹ * (1 - A)⁻¹) * (1 - A) := by rw [key]
    _ = ((1 + A) * (1 + A)⁻¹) * ((1 - A)⁻¹ * (1 - A)) := by noncomm_ring
    _ = 1 := by rw [Matrix.mul_nonsing_inv _ hNu, Matrix.nonsing_inv_mul _ hdu, one_mul]

/-- The Cayley denominators of any reachable state are all nonsingular, so
`get_weight` always takes its non-error branch. -/
theorem get_weight_eq {nb bs : ℕ} (s : OFTState nb bs) :
    get_weight s = some (Matrix.blockDiagonal (blended_R s)) := by
  unfold get_weight
  rw [if_pos]
  exact fun k => det_one_sub_skew _ (rescaled_Q_skew s k)

/-- The merge path: `calc_updown`, whose body duplicates the `get_weight`
pipeline, adds the very rotation `get_weight` returns onto the base
weight elementwise. -/
theorem calc_updown_eq {nb bs : ℕ} (s : OFTState nb bs)
    (w : Matrix (Fin bs × Fin nb) (Fin bs × Fin nb) ℝ) :
    calc_updown s w = (get_weight s).map (fun R => w + R) := by
  unfold calc_updown get_weight
  simp only [rescaled_Q, new_norm_Q, norm_Q, skew_Q, frobNorm, blended_R, cayley_R,
    finalize_updown]
  split <;> rfl

/-! ## The spec-worded rotation versus the source pipeline -/

/-- The spec's `compute_rotation` is the `get_weight` pipeline of a state
whose `constraint` is `alpha * out_dim` and whose cached multiplier is the
given per-call `multiplier`. -/
theorem compute_rotation_eq {nb bs : ℕ} (bp : Fin nb → Matrix (Fin bs) (Fin bs) ℝ)
    (a : ℝ) (od : ℕ) (m : ℝ) (bsz dim : ℕ) :
    compute_rotation bp a od m =
      get_weight (⟨bp, a, dim, a * (od : ℝ), bsz, m⟩ : OFTState nb bs) := by
  unfold compute_rotation get_weight
  simp only [rescaled_Q, new_norm_Q, norm_Q, skew_Q, frobNorm, blended_R, cayley_R]
  split <;> rfl

/-- A state with cached multiplier 0 always returns the identity: the blend
`0 * block_R + 1 * I` erases the Cayley blocks. -/
theorem get_weight_mult_zero {nb bs : ℕ} (s : OFTState nb bs)
    (h : s.oft_multiplier = 0) : get_weight s = some 1 := by
  rw [get_weight_eq]
  have hb : blended_R s = fun _ => (1 : Matrix (Fin bs) (Fin bs) ℝ) := by
    funext k
    simp [blended_R, h]
  rw [hb]
  rw [show (fun _ : Fin nb => (1 : Matrix (Fin bs) (Fin bs) ℝ)) =
    (1 : Fin nb → Matrix (Fin bs) (Fin bs) ℝ) from rfl, Matrix.blockDiagonal_one]

/-- A state with an all-zero `oft_blocks` tensor returns the identity: the
rescale keeps `Q = 0` (the `1e-8` keeps the quotient finite), the Cayley
transform of `0` is `I`, and the blend of `I` with `I` is `I`. -/
theorem get_weight_zero_blocks {nb bs : ℕ} (s : OFTState nb bs)
    (h : s.oft_blocks = 0) : get_weight s = some 1 := by
  have hq : rescaled_Q s = fun _ => (0 : Matrix (Fin bs) (Fin bs) ℝ) := by
    funext k
    simp [rescaled_Q, skew_Q, h]
  have hc : cayley_R s = fun _ => (1 : Matrix (Fin bs) (Fin bs) ℝ) := by
    funext k
    have hone : ((1 : Matrix (Fin bs) (Fin bs) ℝ))⁻¹ = 1 :=
      Matrix.inv_eq_right_inv (one_mul 1)
    simp [cayley_R, hq, hone]
  rw [get_weight_eq]
  have hb : blended_R s = fun _ => (1 : Matrix (Fin bs) (Fin bs) ℝ) := by
    funext k
    rw [blended_R, hc]
    rw [show ((fun _ : Fin nb => (1 : Matrix (Fin bs) (Fin bs) ℝ)) k) = 1 from rfl,
      ← add_smul]
    rw [show s.oft_multiplier + (1 - s.oft_multiplier) = 1 by ring, one_smul]
  rw [hb]
  rw [show (fun _ : Fin nb => (1 : Matrix (Fin bs) (Fin bs) ℝ)) =
    (1 : Fin nb → Matrix (Fin bs) (Fin bs) ℝ) from rfl, Matrix.blockDiagonal_one]

/-! ## Concrete evaluation of the pipeline on `B0` -/

theorem skew_M0 : skew_Q M0 = fun _ => Qm0 := by
  funext k
  ext i j
  simp only [skew_Q, M0, B0, Qm0, Matrix.sub_apply, Matrix.transpose_apply,
    Matrix.of_apply]
  fin_cases i <;> fin_cases j <;>
    simp [Matrix.cons_val_zero, Matrix.cons_val_one, Matrix.head_cons] <;> norm_num

theorem norm_M0 : norm_Q M0 = Real.sqrt 8 := by
  rw [norm_Q, skew_M0]
  unfold frobNorm
  rw [Fin.sum_univ_one]
  rw [Fin.sum_univ_two]
  rw [Fin.sum_univ_two, Fin.sum_univ_two]
  norm_num [Qm0]

theorem sqrt8_le_20 : Real.sqrt 8 ≤ 20 := by
  have h := Real.sqrt_le_sqrt (by norm_num : (8 : ℝ) ≤ 400)
  have h400 : Real.sqrt 400 = 20 := by
    rw [show (400 : ℝ) = 20 ^ 2 by norm_num]
    exact Real.sqrt_sq (by norm_num)
  linarith [h, h400.le, h400.ge]

theorem rescaled_M0 : rescaled_Q M0 = fun _ => Qm0 := by
  funext k
  rw [rescaled_Q]
  have hmin : new_norm_Q M0 = Real.sqrt 8 := by
    rw [new_norm_Q, norm_M0]
    exact min_eq_left (by simpa [M0] using sqrt8_le_20)
  have hpos : (0 : ℝ) < Real.sqrt 8 + eps :=
    add_pos_of_nonneg_of_pos (Real.sqrt_nonneg _) eps_pos
  rw [hmin, norm_M0, div_self (ne_of_gt hpos), one_smul, skew_M0]

theorem cayley_M0 : cayley_R M0 = fun _ => C0 := by
  funext k
  rw [cayley_R, rescaled_M0]
  have hinv : ((1 : Matrix (Fin 2) (Fin 2) ℝ) - Qm0)⁻¹ =
      Matrix.of ![![1/5, 2/5], ![-(2/5), 1/5]] := by
    apply Matrix.inv_eq_right_inv
    ext i j
    fin_cases i <;> fin_cases j <;>
      simp [Matrix.mul_apply, Fin.sum_univ_two, Qm0, Matrix.one_apply,
        Matrix.sub_apply] <;> norm_num
  rw [show ((fun _ : Fin 1 => Qm0) k) = Qm0 from rfl, hinv]
  ext i j
  fin_cases i <;> fin_cases j <;>
    simp [Matrix.mul_apply, Fin.sum_univ_two, Qm0, C0, Matrix.add_apply,
      Matrix.one_apply] <;> norm_num

theorem getWeight_M0 : get_weight M0 = some R0 := by
  rw [get_weight_eq]
  have hb : blended_R M0 = fun _ => C0 := by
    funext k
    rw [blended_R, cayley_M0]
    norm_num [M0]
  rw [hb]
  rfl

theorem R0_ne_one : R0 ≠ (1 : Matrix (Fin 2 × Fin 1) (Fin 2 × Fin 1) ℝ) := by
  intro h
  have he := congrFun (congrFun h ((0 : Fin 2), (0 : Fin 1))) ((0 : Fin 2), (0 : Fin 1))
  rw [R0, Matrix.blockDiagonal_apply_eq, Matrix.one_apply_eq] at he
  norm_num [C0] at he

theorem R0_ne_zero : R0 ≠ (0 : Matrix (Fin 2 × Fin 1) (Fin 2 × Fin 1) ℝ) := by
  intro h
  have he := congrFun (congrFun h ((0 : Fin 2), (0 : Fin 1))) ((0 : Fin 2), (0 : Fin 1))
  rw [R0, Matrix.blockDiagonal_apply_eq] at he
  norm_num [C0] at he

/-! ## The claims -/

/-- C1: for every base weight and every rotation the rotation computation
produces, `calc_updown` returns `base_weight + rotation` — the elementwise
add of the rotation onto the base weight — and not the matrix product
`rotation @ base_weight`: on the concrete state `M0` with base weight `0`
the result is `0 + R0 = R0`, while `R0 * 0 = 0` differs. -/
theorem oft_C1 :
    (∀ (nb bs : ℕ) (s : OFTState nb bs)
      (w R : Matrix (Fin bs × Fin nb) (Fin bs × Fin nb) ℝ),
      get_weight s = some R → calc_updown s w = some (w + R)) ∧
    calc_updown M0 0 = some (0 + R0) ∧
    calc_updown M0 0 ≠ some (R0 * 0) := by
  refine ⟨fun nb bs s w R h => by rw [calc_updown_eq, h]; rfl, ?_, ?_⟩
  · rw [calc_updown_eq, getWeight_M0]; rfl
  · rw [calc_updown_eq, getWeight_M0]
    simp only [Option.map_some', zero_add, mul_zero]
    exact fun hx => R0_ne_zero (Option.some.inj hx)

/-- C2 (amended): the multiplier used in the identity-blending step is the
value `self.multiplier()` returned when the module was constructed, cached
in `oft_multiplier`; an invocation does not reread the caller's current
multiplier, so every call blends with the construction-time value. -/
theorem oft_C2 {nb bs : ℕ} (s : OFTState nb bs) (current : ℝ)
    (h : s.constraint = s.alpha * (s.out_dim : ℝ)) :
    get_weight_invoked s current =
      compute_rotation s.oft_blocks s.alpha s.out_dim s.oft_multiplier := by
  rw [get_weight_invoked,
    compute_rotation_eq s.oft_blocks s.alpha s.out_dim s.oft_multiplier
      s.block_size s.out_dim, ← h]

theorem oft_C2_witness :
    M0.constraint = M0.alpha * (M0.out_dim : ℝ) ∧
    get_weight_invoked M0 0 =
      compute_rotation M0.oft_blocks M0.alpha M0.out_dim M0.oft_multiplier :=
  ⟨by norm_num [M0], oft_C2 M0 0 (by norm_num [M0])⟩

/-- C2 counterexample: the module `M0` was constructed while the network
multiplier was 1; invoking its rotation computation while the caller's
current multiplier is 0 returns the full Cayley rotation `R0`, not the
multiplier-0 blend (the identity) that `compute_rotation` — the per-call
contract the claim states — produces. -/
theorem oft_C2_counterexample :
    get_weight_invoked M0 0 = some R0 ∧
    compute_rotation M0.oft_blocks M0.alpha M0.out_dim 0 = some 1 ∧
    get_weight_invoked M0 0 ≠ compute_rotation M0.oft_blocks M0.alpha M0.out_dim 0 := by
  have h1 : get_weight_invoked M0 0 = some R0 := by
    rw [get_weight_invoked]; exact getWeight_M0
  have h2 : compute_rotation M0.oft_blocks M0.alpha M0.out_dim (0 : ℝ) = some 1 := by
    rw [show M0.oft_blocks = B0 from rfl, show M0.alpha = (10 : ℝ) from rfl,
      show M0.out_dim = 2 from rfl, compute_rotation_eq B0 10 2 0 2 2]
    exact get_weight_mult_zero _ rfl
  exact ⟨h1, h2, by
    rw [h1, h2]
    exact fun hx => R0_ne_one (Option.some.inj hx)⟩

/-- C3: every per-block matrix produced by the Cayley transform step, before
multiplier blending, is orthogonal: `R_block * R_blockᵀ = I` exactly (in
exact real arithmetic), for every state and block, whatever the multiplier. -/
theorem oft_C3 {nb bs : ℕ} (s : OFTState nb bs) (k : Fin nb) :
    cayley_R s k * (cayley_R s k)ᵀ = 1 := by
  simp only [cayley_R]
  exact cayley_orthogonal _ (rescaled_Q_skew s k)

/-- C4: after skew-symmetrisation and the clamp-rescale step, the Frobenius
norm of the rescaled tensor fed into the Cayley transform is at most
`alpha * out_dim + eps` (for a state whose `constraint` is
`alpha * out_dim`, as `__init__` sets it, and a nonnegative `alpha`). -/
theorem oft_C4 {nb bs : ℕ} (s : OFTState nb bs) (h1 : 0 ≤ s.alpha)
    (h2 : s.constraint = s.alpha * (s.out_dim : ℝ)) :
    frobNorm (rescaled_Q s) ≤ s.alpha * (s.out_dim : ℝ) + eps := by
  have hn : 0 ≤ norm_Q s := frobNorm_nonneg _
  have hc : 0 ≤ s.constraint := h2 ▸ mul_nonneg h1 (Nat.cast_nonneg _)
  have hval : frobNorm (rescaled_Q s) =
      |(new_norm_Q s + eps) / (norm_Q s + eps)| * norm_Q s := by
    rw [show rescaled_Q s =
      fun k => ((new_norm_Q s + eps) / (norm_Q s + eps)) • skew_Q s k from rfl,
      frobNorm_smul]
    rfl
  have hfpos : 0 ≤ (new_norm_Q s + eps) / (norm_Q s + eps) := by
    apply div_nonneg
    · have hm : 0 ≤ new_norm_Q s := le_min hn hc
      linarith [eps_pos]
    · linarith [eps_pos]
  rw [← h2, hval, abs_of_nonneg hfpos, div_mul_eq_mul_div,
    div_le_iff₀ (by linarith [eps_pos] : (0 : ℝ) < norm_Q s + eps)]
  have hmin : new_norm_Q s ≤ s.constraint := min_le_right _ _
  nlinarith [mul_nonneg (sub_nonneg.mpr hmin) hn,
    mul_nonneg (add_nonneg hc eps_pos.le) eps_pos.le, eps_pos]

theorem oft_C4_witness :
    (0 : ℝ) ≤ Z0.alpha ∧ Z0.constraint = Z0.alpha * (Z0.out_dim : ℝ) ∧
    frobNorm (rescaled_Q Z0) ≤ Z0.alpha * (Z0.out_dim : ℝ) + eps :=
  ⟨by norm_num [Z0], by norm_num [Z0],
    oft_C4 Z0 (by norm_num [Z0]) (by norm_num [Z0])⟩

/-- C5: a rotation computation whose multiplier is 0 returns the identity
matrix, whatever the block parameters and alpha: the blend
`0 * R + 1 * I` erases the learned rotation. -/
theorem oft_C5 {nb bs : ℕ} (s : OFTState nb bs) (h : s.oft_multiplier = 0) :
    get_weight s = some 1 :=
  get_weight_mult_zero s h

theorem oft_C5_witness : M5.oft_multiplier = 0 ∧ get_weight M5 = some 1 :=
  ⟨rfl, oft_C5 M5 rfl⟩

/-- C6: if the block-parameter tensor is all zeros, the rotation computation
returns the identity matrix for any alpha and any multiplier (the `1e-8`
in the rescale step keeps the quotient finite at norm 0). -/
theorem oft_C6 {nb bs : ℕ} (s : OFTState nb bs) (h : s.oft_blocks = 0) :
    get_weight s = some 1 :=
  get_weight_zero_blocks s h

theorem oft_C6_witness : Z0.oft_blocks = 0 ∧ get_weight Z0 = some 1 :=
  ⟨rfl, oft_C6 Z0 rfl⟩

/-- C7 counterexample: with `num_blocks = 4`, `block_size = 8` the rotation
is `32 × 32`, and `calc_updown` on a `(32, 16)` base weight does not return
a `(32, 16)` result: the elementwise add `orig_weight + R` of line 65 is a
broadcast between `(32, 16)` and `(32, 32)`, whose trailing dimensions are
incompatible, so the merge raises a RuntimeError (`none`). -/
theorem oft_C7_counterexample : calc_updown_shape 4 8 (32, 16) = none := by decide

/-- C7 (amended): for `num_blocks = 4`, `block_size = 8` the rotation is a
`32 × 32` matrix; merging succeeds only when the base weight's second
dimension broadcasts against 32 — a `(32, 32)` base weight returns a
`(32, 32)` result, while a `(32, 16)` base weight raises a shape error. -/
theorem oft_C7 : rotationShape 4 8 = (32, 32) ∧
    calc_updown_shape 4 8 (32, 32) = some (32, 32) ∧
    calc_updown_shape 4 8 (32, 16) = none := by decide

/-- C8: the rotation computation fails (torch.inverse raises, modelled
`none`) exactly when some block's Cayley denominator `I - Q_block` is
singular; it never returns a default value in place of a failed inversion.
(By `det_one_sub_skew`, in exact real arithmetic the skew-symmetrised
blocks in fact never produce a singular denominator.) -/
theorem oft_C8 {nb bs : ℕ} (s : OFTState nb bs) :
    get_weight s = none ↔
      ∃ k, ((1 : Matrix (Fin bs) (Fin bs) ℝ) - rescaled_Q s k).det = 0 := by
  unfold get_weight
  split_ifs with h
  · constructor
    · intro hx
      exact absurd hx (by simp)
    · intro ⟨k, hk⟩
      exact absurd hk (h k)
  · push_neg at h
    exact iff_of_true rfl h

/-- C9: the rotation matrix assembled inline in `calc_updown` (lines 55-62)
is the rotation `get_weight` (lines 40-51) returns — the two duplicated
pipelines agree on every state, and the merge is that rotation added onto
the base weight. -/
theorem oft_C9 {nb bs : ℕ} (s : OFTState nb bs)
    (w : Matrix (Fin bs × Fin nb) (Fin bs × Fin nb) ℝ) :
    calc_updown s w = (get_weight s).map (fun R => w + R) :=
  calc_updown_eq s w

/-- C10: constructing a `NetworkModuleOFT` defines `out_dim` (and with it
`constraint` and `block_size`) exactly when the target layer's class name
contains "Linear" or "Conv": for any other class the constructor fails
(`out_dim` is never assigned, so the `constraint` computation raises) rather
than producing a module with an undefined output dimension. -/
theorem oft_C10 (nbv bsv : ℕ) (blocks : Fin nbv → Matrix (Fin bsv) (Fin bsv) ℝ)
    (a : ℝ) (cn : String) (f c : ℕ) (m : ℝ) :
    ((oft_init blocks a cn f c m).isSome =
      (strContains cn "Linear" || strContains cn "Conv")) ∧
    (Option.map (fun s => s.out_dim) (oft_init blocks a cn f c m) =
      if strContains cn "Linear" then some f
      else if strContains cn "Conv" then some c else none) := by
  unfold oft_init layer_out_dim
  split_ifs with h1 h2 <;> simp [*]
